import Mathlib

/-!
Verification of the two core algorithms of the hacker-news-daily
repository: the Telegram long-message chunker
(`telegram/bot.go`: `sendLongMessage`, `sendVeryLongParagraph`) and the
Hacker News comment-tree fetcher (`hackernews/client.go`: `getComment`,
`getCommentsParallel`, `GetStoryWithComments`).

Go strings are modelled as lists of bytes (`List Nat`), so Go `len` is
exactly `List.length`.  Go `int` parameters (`maxLength`, `maxDepth`)
are modelled as `Int`.
-/

namespace HNDaily

/-- UTF-8 bytes of the paragraph separator `"\n\n"` used by
`strings.Split(text, "\n\n")` in `sendLongMessage`. -/
def paragraphSep : List Nat := [10, 10]

/-- UTF-8 bytes of the ideographic full stop U+3002, the sentence
terminator used by `strings.Split(paragraph, "。")` in
`sendVeryLongParagraph`. -/
def ideographicStop : List Nat := [227, 128, 130]

/-- Fuel-indexed splitter mirroring Go `strings.Split` for a non-empty
separator: scan left to right and cut at each non-overlapping occurrence
of `sep`.  The `fuel` argument only drives termination; `splitOnSeq`
supplies `s.length`, which is always sufficient. -/
def splitOnSeqF (sep : List Nat) : Nat → List Nat → List (List Nat)
  | _, [] => [[]]
  | 0, s => [s]
  | fuel + 1, c :: rest =>
    if sep ≠ [] ∧ (c :: rest).take sep.length = sep then
      [] :: splitOnSeqF sep fuel ((c :: rest).drop sep.length)
    else
      match splitOnSeqF sep fuel rest with
      | [] => [[c]]
      | t :: ts => (c :: t) :: ts

/-- Go `strings.Split(s, sep)` on byte lists, for non-empty `sep`. -/
def splitOnSeq (sep s : List Nat) : List (List Nat) := splitOnSeqF sep s.length s

/-- Go `strings.Join(xs, sep)` on byte lists. -/
def joinSep (sep : List Nat) : List (List Nat) → List Nat
  | [] => []
  | [x] => x
  | x :: xs => x ++ sep ++ joinSep sep xs

/-- Go `strings.Contains(s, pat)` on byte lists. -/
def containsSeq (pat : List Nat) : List Nat → Bool
  | [] => decide (pat = [])
  | c :: rest => decide ((c :: rest).take pat.length = pat) || containsSeq pat rest

/-- Result of a chunking pass.  `chunks` are the texts handed to
`b.sendMessage`, in sending order; `bufs` records the contents of the
`strings.Builder` accumulation buffer after every `WriteString`, which
is what the buffer-invariant claims quantify over. -/
structure ChunkRes where
  chunks : List (List Nat)
  bufs : List (List Nat)

/-- Loop body of `sendVeryLongParagraph` (telegram/bot.go:165-192),
iterating over the sentences of `strings.Split(paragraph, "。")` with the
current buffer `cur`.  The terminator is re-attached to every sentence
except the last (`sentence += "。"` when `i < len(sentences)-1`); if
adding the sentence would overflow `maxLength` the non-empty buffer is
flushed first; the sentence is then always written to the buffer.  The
trailing non-empty buffer is flushed after the loop. -/
def svlpLoop (maxLength : Int) : List (List Nat) → List Nat → ChunkRes
  | [], cur => ⟨if cur ≠ [] then [cur] else [], []⟩
  | s :: rest, cur =>
    let sentence := if rest = [] then s else s ++ ideographicStop
    if (cur.length : Int) + sentence.length > maxLength then
      let r := svlpLoop maxLength rest sentence
      ⟨(if cur ≠ [] then [cur] else []) ++ r.chunks, sentence :: r.bufs⟩
    else
      let r := svlpLoop maxLength rest (cur ++ sentence)
      ⟨r.chunks, (cur ++ sentence) :: r.bufs⟩

/-- `sendVeryLongParagraph(paragraph, maxLength)`
(telegram/bot.go:165-192): split the paragraph on the ideographic full
stop and greedily pack the sentences. -/
def sendVeryLongParagraph (paragraph : List Nat) (maxLength : Int) : ChunkRes :=
  svlpLoop maxLength (splitOnSeq ideographicStop paragraph) []

/-- Result of `sendLongMessage`.  Chunks are grouped for the round-trip
statement: each group is either the single flush of the paragraph
accumulation buffer, or the full chunk sequence that
`sendVeryLongParagraph` produced for one oversized paragraph.  The flat
sequence of sent messages is `groups.flatten`.  `bufs` records every
intermediate accumulation-buffer content of both loops. -/
structure SLMRes where
  groups : List (List (List Nat))
  bufs : List (List Nat)

/-- Loop body of `sendLongMessage` (telegram/bot.go:114-162), iterating
over the paragraphs of `strings.Split(text, "\n\n")` with current buffer
`cur`.  An oversized paragraph (`len(paragraph) > maxLength`) flushes
the buffer and is delegated to `sendVeryLongParagraph`; otherwise the
buffer is flushed when `cur.Len()+len(paragraph)+2 > maxLength`, and the
paragraph is appended to the buffer, preceded by `"\n\n"` when the
buffer is non-empty. -/
def slmLoop (maxLength : Int) : List (List Nat) → List Nat → SLMRes
  | [], cur => ⟨if cur ≠ [] then [[cur]] else [], []⟩
  | p :: rest, cur =>
    if (p.length : Int) > maxLength then
      let sv := sendVeryLongParagraph p maxLength
      let r := slmLoop maxLength rest []
      ⟨(if cur ≠ [] then [[cur]] else []) ++ [sv.chunks] ++ r.groups, sv.bufs ++ r.bufs⟩
    else if (cur.length : Int) + p.length + 2 > maxLength then
      let r := slmLoop maxLength rest p
      ⟨(if cur ≠ [] then [[cur]] else []) ++ r.groups, p :: r.bufs⟩
    else
      let cur2 := if cur ≠ [] then cur ++ paragraphSep ++ p else p
      let r := slmLoop maxLength rest cur2
      ⟨r.groups, cur2 :: r.bufs⟩

/-- `sendLongMessage(text, maxLength)` (telegram/bot.go:114-162).  A text
that already fits is sent as a single message; otherwise the text is
split into paragraphs and greedily packed. -/
def sendLongMessage (text : List Nat) (maxLength : Int) : SLMRes :=
  if (text.length : Int) ≤ maxLength then ⟨[[text]], []⟩
  else slmLoop maxLength (splitOnSeq paragraphSep text) []

/-- The flat ordered sequence of chunks sent by `sendLongMessage` — the
spec's `Split(text, maxLen)`. -/
def splitChunks (text : List Nat) (maxLength : Int) : List (List Nat) :=
  (sendLongMessage text maxLength).groups.flatten

/-- The sentences of a paragraph as carried by the
`sendVeryLongParagraph` loop: the terminator is re-attached to every
piece except the last. -/
def withTerm : List (List Nat) → List (List Nat)
  | [] => []
  | s :: rest => (if rest = [] then s else s ++ ideographicStop) :: withTerm rest

/-- `c` is an oversized sentence of `text` at limit `maxLen`: a single
sentence (terminator included) of an oversized paragraph of `text`, and
the sentence itself exceeds `maxLen`.  These are exactly the chunks the
oversized-sentence fallback emits verbatim. -/
def OversizedSentence (text : List Nat) (maxLen : Int) (c : List Nat) : Prop :=
  ∃ p ∈ splitOnSeq paragraphSep text, (p.length : Int) > maxLen ∧
    c ∈ withTerm (splitOnSeq ideographicStop p) ∧ (c.length : Int) > maxLen

/-- Rejoining of the chunker output with the chunker's own separators:
`"\n\n"` between groups (paragraph-level boundaries) and the empty
string inside a sentence-fallback group, whose chunks retain their
terminators. -/
def reconstructChunks (text : List Nat) (maxLength : Int) : List Nat :=
  joinSep paragraphSep ((sendLongMessage text maxLength).groups.map List.flatten)






/-- The flat item document returned by the Hacker News item endpoint, as
decoded into the Go `Comment` struct (hackernews/model.go:15-24) before
any children are attached: `ID`, `By`, `Text`, `Time`, `Kids`, `Parent`,
`Type`.  (`Children` is never populated by the endpoint; it is filled in
by `getComment`, so resolved nodes are modelled separately as
`CommentTree`.) -/
structure Item where
  id : Int
  author : String
  text : String
  time : Int
  kids : List Int
  parent : Int
  type_ : String
deriving DecidableEq

/-- A resolved comment node: the fetched item together with its resolved
children (the Go `Comment` value returned by `getComment`, whose
`Children` field holds the recursively resolved subtrees). -/
inductive CommentTree where
  | node (item : Item) (children : List CommentTree)

/-- The item stored in a resolved node. -/
def CommentTree.item : CommentTree → Item
  | .node it _ => it

/-- The resolved children of a node. -/
def CommentTree.children : CommentTree → List CommentTree
  | .node _ cs => cs

/-- Outcome of one `getComment(id, depth)` call, i.e. of the Go result
pair `(*Comment, error)`: `fetchError` is `(nil, err)` with `err ≠ nil`
(transport error or non-200 status), `skipped` is `(nil, nil)` (depth
exhausted, or a deleted/empty/non-comment item), and `ok t` is
`(&comment, nil)`. -/
inductive FetchResult where
  | fetchError
  | skipped
  | ok (t : CommentTree)

/-- `true` exactly on successful resolutions. -/
def FetchResult.isOk : FetchResult → Bool
  | .ok _ => true
  | _ => false

/-- The resolved tree of a successful result. -/
def FetchResult.tree : FetchResult → Option CommentTree
  | .ok t => some t
  | _ => none

/-- `getComment` (hackernews/client.go:121-160) at a positive remaining
depth `n + 1`.  The item store `store` abstracts the HTTP item endpoint:
`none` is a failed fetch (transport error or non-200 response), `some`
is a decoded item.  Alongside the result we return the list of ids
actually fetched from the store, in dispatch order (the Go code issues
sibling fetches concurrently and joins them; completion order is not
observable in any property proved here).  A deleted/empty or
non-`"comment"` item yields `(nil, nil)`.  When the item has kids and
more than one level of depth remains, the kids are truncated in place to
the first `maxChildren = 5` and resolved with depth `maxDepth - 1`;
failed or skipped children are dropped (`err == nil && comment != nil`
in `getCommentsParallel`, client.go:163-196). -/
def getCommentPos (store : Int → Option Item) : Nat → Int → FetchResult × List Int
  | 0, _ => (.skipped, [])
  | n + 1, commentID =>
    match store commentID with
    | none => (.fetchError, [commentID])
    | some item =>
      if item.text = "" ∨ item.type_ ≠ "comment" then (.skipped, [commentID])
      else if item.kids ≠ [] ∧ 0 < n then
        let kids5 := if 5 < item.kids.length then item.kids.take 5 else item.kids
        let rs := kids5.map (fun kid => getCommentPos store n kid)
        let children := rs.filterMap (fun r => r.1.tree)
        (.ok (.node { item with kids := kids5 } children),
          commentID :: (rs.map Prod.snd).flatten)
      else (.ok (.node item []), [commentID])

/-- `getComment(commentID, maxDepth)` for an arbitrary integer depth:
`maxDepth <= 0` returns `(nil, nil)` immediately, without touching the
store (client.go:121-124); a positive depth runs the recursion above. -/
def getComment (store : Int → Option Item) (commentID : Int) (maxDepth : Int) :
    FetchResult × List Int :=
  if maxDepth ≤ 0 then (.skipped, []) else getCommentPos store maxDepth.toNat commentID

/-- `getCommentsParallel(commentIDs, maxDepth)` (client.go:163-196):
resolve every id at the given depth and keep exactly the successful
resolutions (`err == nil && comment != nil`); no error is ever returned
to the caller (the Go signature returns only `[]Comment`).  The second
component collects all ids fetched from the store. -/
def getCommentsParallel (store : Int → Option Item) (commentIDs : List Int)
    (maxDepth : Int) : List CommentTree × List Int :=
  let rs := commentIDs.map (fun commentID => getComment store commentID maxDepth)
  (rs.filterMap (fun r => r.1.tree), (rs.map Prod.snd).flatten)

/-- The story document decoded into the Go `Story` struct
(hackernews/model.go:3-13). -/
structure Story where
  id : Int
  title : String
  url : String
  score : Int
  author : String
  time : Int
  text : String
  kids : List Int
  hackerNewsURL : String
deriving DecidableEq

/-- `GetStoryWithComments(storyID)` (client.go:87-118).  The story
endpoint is abstracted by `storyStore` (`none` = transport error or
non-200, surfaced as an error to the caller).  When the story has kids
they are truncated in place to the first `maxComments = 20` and resolved
by `getCommentsParallel` at depth 2. -/
def GetStoryWithComments (storyStore : Int → Option Story)
    (store : Int → Option Item) (storyID : Int) : Option (Story × List CommentTree) :=
  match storyStore storyID with
  | none => none
  | some story =>
    if story.kids ≠ [] then
      let kids20 := if 20 < story.kids.length then story.kids.take 20 else story.kids
      some ({ story with kids := kids20 }, (getCommentsParallel store kids20 2).1)
    else some (story, [])

mutual

/-- Every node of the tree has at most 5 resolved children: the nested
fan-out cap of `getComment` holds at every recursion level. -/
def capOK : CommentTree → Bool
  | .node _ cs => decide (cs.length ≤ 5) && capOKList cs

/-- `capOK` on every tree of a forest. -/
def capOKList : List CommentTree → Bool
  | [] => true
  | t :: ts => capOK t && capOKList ts

end

/-- A valid comment item with six kids, used in witnesses and
counterexamples. -/
def itemSix : Item := ⟨1, "alice", "hello", 0, [2, 3, 4, 5, 6, 7], 0, "comment"⟩

/-- A valid leaf comment item (no kids). -/
def itemLeaf1 : Item := ⟨1, "alice", "hello", 0, [], 0, "comment"⟩

/-- A second valid leaf comment item (no kids). -/
def itemLeaf3 : Item := ⟨3, "carol", "world", 0, [], 0, "comment"⟩

/-- Item store used in witnesses and counterexamples: id 1 is `itemSix`;
every other id fails to fetch. -/
def storeSixKids : Int → Option Item := fun i =>
  if i = 1 then some itemSix else none

/-- Item store used in witnesses: ids 1 and 3 are valid leaf comments,
id 2 fails at the store, everything else fails as well. -/
def storeOneFails : Int → Option Item := fun i =>
  if i = 1 then some itemLeaf1
  else if i = 3 then some itemLeaf3
  else none

/-- A story with 25 kids, used in witnesses. -/
def storyW : Story :=
  ⟨100, "t", "u", 1, "bob", 0, "", [1, 2, 3, 4, 5, 6, 7, 8, 9, 10, 11, 12,
    13, 14, 15, 16, 17, 18, 19, 20, 21, 22, 23, 24, 25], "h"⟩

/-- Story store used in witnesses: story 100 is `storyW`. -/
def storyStore25 : Int → Option Story := fun i =>
  if i = 100 then some storyW else none

/-- The resolved node produced for `itemSix` at depth 2 when every kid
fails to fetch: the kids list is truncated to the first five and no
child resolves. -/
def treeSix : CommentTree := .node ⟨1, "alice", "hello", 0, [2, 3, 4, 5, 6], 0, "comment"⟩ []

/-! ### Splitting and joining -/

theorem splitOnSeqF_ne_nil (sep : List Nat) :
    ∀ (fuel : Nat) (s : List Nat), splitOnSeqF sep fuel s ≠ []
  | _, [] => by simp [splitOnSeqF]
  | 0, _ :: _ => by simp [splitOnSeqF]
  | _ + 1, c :: rest => by
    simp only [splitOnSeqF]
    split
    · simp
    · split <;> simp

theorem joinSep_splitOnSeqF (sep : List Nat) (hsep : sep ≠ []) :
    ∀ (fuel : Nat) (s : List Nat), s.length ≤ fuel →
      joinSep sep (splitOnSeqF sep fuel s) = s
  | _, [], _ => by simp [splitOnSeqF, joinSep]
  | 0, _ :: _, h => by simp at h
  | fuel + 1, c :: rest, h => by
    simp only [splitOnSeqF]
    split
    · rename_i hcond
      obtain ⟨hsep', htake⟩ := hcond
      have hseplen : 1 ≤ sep.length := List.length_pos.mpr hsep'
      simp only [List.length_cons] at h
      have hdrop : ((c :: rest).drop sep.length).length ≤ fuel := by
        simp only [List.length_drop, List.length_cons]
        omega
      have ih := joinSep_splitOnSeqF sep hsep fuel _ hdrop
      obtain ⟨t, ts, hL⟩ :=
        List.exists_cons_of_ne_nil (splitOnSeqF_ne_nil sep fuel ((c :: rest).drop sep.length))
      rw [hL] at ih ⊢
      show joinSep sep ([] :: t :: ts) = c :: rest
      simp only [joinSep]
      rw [ih]
      conv_rhs => rw [← List.take_append_drop sep.length (c :: rest)]
      rw [htake]
      simp
    · have hlen : rest.length ≤ fuel := by
        simp only [List.length_cons] at h
        omega
      have ih := joinSep_splitOnSeqF sep hsep fuel rest hlen
      obtain ⟨t, ts, hL⟩ :=
        List.exists_cons_of_ne_nil (splitOnSeqF_ne_nil sep fuel rest)
      rw [hL] at ih ⊢
      cases ts with
      | nil =>
        simp only [joinSep] at ih ⊢
        rw [ih]
      | cons u us =>
        simp only [joinSep] at ih ⊢
        rw [List.cons_append, List.cons_append, ih]

theorem joinSep_splitOnSeq (sep : List Nat) (hsep : sep ≠ []) (s : List Nat) :
    joinSep sep (splitOnSeq sep s) = s :=
  joinSep_splitOnSeqF sep hsep s.length s (Nat.le_refl _)

theorem splitOnSeqF_of_not_contains (sep : List Nat) :
    ∀ (fuel : Nat) (s : List Nat), containsSeq sep s = false → splitOnSeqF sep fuel s = [s]
  | _, [], _ => by simp [splitOnSeqF]
  | 0, _ :: _, _ => by simp [splitOnSeqF]
  | fuel + 1, c :: rest, h => by
    simp only [containsSeq, Bool.or_eq_false_iff, decide_eq_false_iff_not] at h
    obtain ⟨h1, h2⟩ := h
    simp only [splitOnSeqF]
    rw [if_neg (fun hc => h1 hc.2)]
    rw [splitOnSeqF_of_not_contains sep fuel rest h2]

theorem splitOnSeq_of_not_contains (sep s : List Nat) (h : containsSeq sep s = false) :
    splitOnSeq sep s = [s] :=
  splitOnSeqF_of_not_contains sep s.length s h

theorem ne_nil_of_mem_splitOnSeq {sep s p : List Nat} (hp : p ∈ splitOnSeq sep s)
    (hpne : p ≠ []) : s ≠ [] := by
  intro hs
  subst hs
  simp [splitOnSeq, splitOnSeqF] at hp
  exact hpne hp

/-! ### The sentence fallback: content preservation and length bounds -/

theorem withTerm_flatten : ∀ l : List (List Nat),
    (withTerm l).flatten = joinSep ideographicStop l
  | [] => rfl
  | [s] => by simp [withTerm, joinSep]
  | s :: t :: rest => by
    have ih := withTerm_flatten (t :: rest)
    show ((s ++ ideographicStop) :: withTerm (t :: rest)).flatten =
      joinSep ideographicStop (s :: t :: rest)
    simp only [List.flatten_cons, ih, joinSep, List.append_assoc]

theorem svlpLoop_chunks_flatten (maxLength : Int) :
    ∀ (sentences : List (List Nat)) (cur : List Nat),
      (svlpLoop maxLength sentences cur).chunks.flatten = cur ++ (withTerm sentences).flatten
  | [], cur => by
    simp only [svlpLoop, withTerm]
    split <;> simp_all
  | s :: rest, cur => by
    have ih := svlpLoop_chunks_flatten maxLength rest
    simp only [svlpLoop]
    set sentence := if rest = [] then s else s ++ ideographicStop with hsent
    have hwt : withTerm (s :: rest) = sentence :: withTerm rest := by
      simp only [withTerm, hsent]
    rw [hwt]
    split
    · simp only [List.flatten_append, ih, List.flatten_cons]
      split <;> simp_all [List.append_assoc]
    · simp only [ih, List.flatten_cons]
      simp [List.append_assoc]

theorem sendVeryLongParagraph_flatten (p : List Nat) (maxLength : Int) :
    (sendVeryLongParagraph p maxLength).chunks.flatten = p := by
  unfold sendVeryLongParagraph
  rw [svlpLoop_chunks_flatten, withTerm_flatten, joinSep_splitOnSeq]
  · simp
  · simp [ideographicStop]

theorem svlpLoop_bound (P : List Nat → Prop) (maxLength : Int) :
    ∀ (sentences : List (List Nat)) (cur : List Nat),
      ((cur.length : Int) ≤ maxLength ∨ P cur) →
      (∀ s ∈ withTerm sentences, (s.length : Int) > maxLength → P s) →
      (∀ c ∈ (svlpLoop maxLength sentences cur).chunks, (c.length : Int) ≤ maxLength ∨ P c) ∧
      (∀ b ∈ (svlpLoop maxLength sentences cur).bufs, (b.length : Int) ≤ maxLength ∨ P b)
  | [], cur => by
    intro hcur _
    constructor
    · intro c hc
      simp only [svlpLoop] at hc
      split at hc
      · simp at hc
        subst hc
        exact hcur
      · simp at hc
    · intro b hb
      simp only [svlpLoop] at hb
      simp at hb
  | s :: rest, cur => by
    intro hcur hs
    have ihgen := svlpLoop_bound P maxLength rest
    simp only [svlpLoop]
    set sentence := if rest = [] then s else s ++ ideographicStop with hsentdef
    have hwt : withTerm (s :: rest) = sentence :: withTerm rest := by
      simp only [withTerm, hsentdef]
    rw [hwt] at hs
    have hstail : ∀ x ∈ withTerm rest, (x.length : Int) > maxLength → P x :=
      fun x hx hlen => hs x (List.mem_cons_of_mem _ hx) hlen
    split
    · rename_i hfired
      have hsentp : ((sentence.length : Int) ≤ maxLength ∨ P sentence) := by
        by_cases hle : ((sentence.length : Int)) ≤ maxLength
        · exact Or.inl hle
        · exact Or.inr (hs sentence (List.mem_cons_self _ _) (by omega))
      have ih := ihgen sentence hsentp hstail
      constructor
      · intro c hc
        simp only [List.mem_append] at hc
        rcases hc with hc | hc
        · split at hc
          · simp at hc
            subst hc
            exact hcur
          · simp at hc
        · exact ih.1 c hc
      · intro b hb
        simp only [List.mem_cons] at hb
        rcases hb with hb | hb
        · subst hb
          exact hsentp
        · exact ih.2 b hb
    · rename_i hnot
      have hle : ((cur ++ sentence).length : Int) ≤ maxLength := by
        simp only [List.length_append]
        push_cast
        omega
      have ih := ihgen (cur ++ sentence) (Or.inl hle) hstail
      constructor
      · intro c hc
        exact ih.1 c hc
      · intro b hb
        simp only [List.mem_cons] at hb
        rcases hb with hb | hb
        · subst hb
          exact Or.inl hle
        · exact ih.2 b hb

/-! ### The paragraph loop: step equations, bounds, content -/

theorem slmLoop_nil (maxLength : Int) (cur : List Nat) :
    slmLoop maxLength [] cur = ⟨if cur ≠ [] then [[cur]] else [], []⟩ := rfl

theorem slmLoop_cons_big (maxLength : Int) (p : List Nat) (rest : List (List Nat))
    (cur : List Nat) (h : (p.length : Int) > maxLength) :
    slmLoop maxLength (p :: rest) cur =
      ⟨(if cur ≠ [] then [[cur]] else []) ++ [(sendVeryLongParagraph p maxLength).chunks] ++
          (slmLoop maxLength rest []).groups,
        (sendVeryLongParagraph p maxLength).bufs ++ (slmLoop maxLength rest []).bufs⟩ := by
  simp only [slmLoop]
  rw [if_pos h]

theorem slmLoop_cons_flush (maxLength : Int) (p : List Nat) (rest : List (List Nat))
    (cur : List Nat) (h1 : ¬(p.length : Int) > maxLength)
    (h2 : (cur.length : Int) + p.length + 2 > maxLength) :
    slmLoop maxLength (p :: rest) cur =
      ⟨(if cur ≠ [] then [[cur]] else []) ++ (slmLoop maxLength rest p).groups,
        p :: (slmLoop maxLength rest p).bufs⟩ := by
  simp only [slmLoop]
  rw [if_neg h1, if_pos h2]

theorem slmLoop_cons_acc (maxLength : Int) (p : List Nat) (rest : List (List Nat))
    (cur : List Nat) (h1 : ¬(p.length : Int) > maxLength)
    (h2 : ¬(cur.length : Int) + p.length + 2 > maxLength) :
    slmLoop maxLength (p :: rest) cur =
      ⟨(slmLoop maxLength rest (if cur ≠ [] then cur ++ paragraphSep ++ p else p)).groups,
        (if cur ≠ [] then cur ++ paragraphSep ++ p else p) ::
          (slmLoop maxLength rest (if cur ≠ [] then cur ++ paragraphSep ++ p else p)).bufs⟩ := by
  simp only [slmLoop]
  rw [if_neg h1, if_neg h2]

theorem slmLoop_bound (Q : List Nat → Prop) (maxLength : Int) (hm : 0 ≤ maxLength) :
    ∀ (paragraphs : List (List Nat)) (cur : List Nat),
      (cur.length : Int) ≤ maxLength →
      (∀ p ∈ paragraphs, (p.length : Int) > maxLength →
        (∀ c ∈ (sendVeryLongParagraph p maxLength).chunks, (c.length : Int) ≤ maxLength ∨ Q c) ∧
        (∀ b ∈ (sendVeryLongParagraph p maxLength).bufs, (b.length : Int) ≤ maxLength ∨ Q b)) →
      (∀ c ∈ (slmLoop maxLength paragraphs cur).groups.flatten,
        (c.length : Int) ≤ maxLength ∨ Q c) ∧
      (∀ b ∈ (slmLoop maxLength paragraphs cur).bufs, (b.length : Int) ≤ maxLength ∨ Q b)
  | [], cur => by
    intro hcur _
    rw [slmLoop_nil]
    constructor
    · intro c hc
      simp only at hc
      split at hc
      · simp at hc
        subst hc
        exact Or.inl hcur
      · simp at hc
    · intro b hb
      simp at hb
  | p :: rest, cur => by
    intro hcur hov
    have hovtail : ∀ q ∈ rest, (q.length : Int) > maxLength →
        (∀ c ∈ (sendVeryLongParagraph q maxLength).chunks, (c.length : Int) ≤ maxLength ∨ Q c) ∧
        (∀ b ∈ (sendVeryLongParagraph q maxLength).bufs, (b.length : Int) ≤ maxLength ∨ Q b) :=
      fun q hq => hov q (List.mem_cons_of_mem p hq)
    by_cases hbig : (p.length : Int) > maxLength
    · rw [slmLoop_cons_big maxLength p rest cur hbig]
      have hsv := hov p (List.mem_cons_self p rest) hbig
      have ih := slmLoop_bound Q maxLength hm rest [] (by simpa using hm) hovtail
      constructor
      · intro c hc
        simp only [List.flatten_append] at hc
        rw [List.mem_append, List.mem_append] at hc
        rcases hc with (hc | hc) | hc
        · split at hc
          · simp at hc
            subst hc
            exact Or.inl hcur
          · simp at hc
        · simp only [List.flatten_cons, List.flatten_nil, List.append_nil] at hc
          exact hsv.1 c hc
        · exact ih.1 c hc
      · intro b hb
        simp only [List.mem_append] at hb
        rcases hb with hb | hb
        · exact hsv.2 b hb
        · exact ih.2 b hb
    · by_cases hfl : (cur.length : Int) + p.length + 2 > maxLength
      · rw [slmLoop_cons_flush maxLength p rest cur hbig hfl]
        have ih := slmLoop_bound Q maxLength hm rest p (by omega) hovtail
        constructor
        · intro c hc
          simp only [List.flatten_append] at hc
          rw [List.mem_append] at hc
          rcases hc with hc | hc
          · split at hc
            · simp at hc
              subst hc
              exact Or.inl hcur
            · simp at hc
          · exact ih.1 c hc
        · intro b hb
          simp only [List.mem_cons] at hb
          rcases hb with hb | hb
          · subst hb
            exact Or.inl (by omega)
          · exact ih.2 b hb
      · have hcur2 : (((if cur ≠ [] then cur ++ paragraphSep ++ p else p)).length : Int) ≤
            maxLength := by
          split
          · simp only [List.length_append, paragraphSep]
            push_cast
            simp only [List.length_cons, List.length_nil]
            omega
          · omega
        rw [slmLoop_cons_acc maxLength p rest cur hbig hfl]
        have ih := slmLoop_bound Q maxLength hm rest _ hcur2 hovtail
        constructor
        · intro c hc
          exact ih.1 c hc
        · intro b hb
          simp only [List.mem_cons] at hb
          rcases hb with hb | hb
          · subst hb
            exact Or.inl hcur2
          · exact ih.2 b hb

theorem joinSep_cons_of_ne (sep x : List Nat) {ys : List (List Nat)} (h : ys ≠ []) :
    joinSep sep (x :: ys) = x ++ sep ++ joinSep sep ys := by
  cases ys with
  | nil => exact absurd rfl h
  | cons u us => simp [joinSep]

theorem slmLoop_groups_ne_nil (maxLength : Int) :
    ∀ (paragraphs : List (List Nat)) (cur : List Nat), (∀ p ∈ paragraphs, p ≠ []) →
      (cur ≠ [] ∨ paragraphs ≠ []) → (slmLoop maxLength paragraphs cur).groups ≠ []
  | [], cur => by
    intro _ hor
    rcases hor with hcur | hps
    · rw [slmLoop_nil]
      simp [hcur]
    · exact absurd rfl hps
  | p :: rest, cur => by
    intro hne hor
    have hp : p ≠ [] := hne p (List.mem_cons_self p rest)
    have hrest : ∀ q ∈ rest, q ≠ [] := fun q hq => hne q (List.mem_cons_of_mem p hq)
    by_cases hbig : (p.length : Int) > maxLength
    · rw [slmLoop_cons_big maxLength p rest cur hbig]
      simp
    · by_cases hfl : (cur.length : Int) + p.length + 2 > maxLength
      · rw [slmLoop_cons_flush maxLength p rest cur hbig hfl]
        have ih := slmLoop_groups_ne_nil maxLength rest p hrest (Or.inl hp)
        simp only [ne_eq, List.append_eq_nil]
        intro hfalse
        exact ih hfalse.2
      · rw [slmLoop_cons_acc maxLength p rest cur hbig hfl]
        have hcur2 : (if cur ≠ [] then cur ++ paragraphSep ++ p else p) ≠ [] := by
          split
          · simp [hp]
          · exact hp
        exact slmLoop_groups_ne_nil maxLength rest _ hrest (Or.inl hcur2)

theorem slmLoop_reconstruct (maxLength : Int) :
    ∀ (paragraphs : List (List Nat)) (cur : List Nat), (∀ p ∈ paragraphs, p ≠ []) →
      joinSep paragraphSep ((slmLoop maxLength paragraphs cur).groups.map List.flatten) =
        joinSep paragraphSep (if cur = [] then paragraphs else cur :: paragraphs)
  | [], cur => by
    intro _
    rw [slmLoop_nil]
    by_cases hcur : cur = []
    · rw [if_pos hcur]
      simp [hcur, joinSep]
    · rw [if_neg hcur, if_pos hcur]
      simp [joinSep]
  | p :: rest, cur => by
    intro hne
    have hp : p ≠ [] := hne p (List.mem_cons_self p rest)
    have hrest : ∀ q ∈ rest, q ≠ [] := fun q hq => hne q (List.mem_cons_of_mem p hq)
    by_cases hbig : (p.length : Int) > maxLength
    · rw [slmLoop_cons_big maxLength p rest cur hbig]
      have ihr := slmLoop_reconstruct maxLength rest [] hrest
      rw [if_pos rfl] at ihr
      simp only [List.map_append, List.map_cons, List.map_nil,
        sendVeryLongParagraph_flatten p maxLength]
      by_cases hrestnil : rest = []
      · subst hrestnil
        have hg : (slmLoop maxLength [] ([] : List Nat)).groups = [] := by
          rw [slmLoop_nil]
          simp
        rw [hg]
        by_cases hcur : cur = []
        · rw [if_pos hcur]
          simp [hcur, joinSep]
        · rw [if_neg hcur, if_pos hcur]
          simp [joinSep]
      · have hgne : (slmLoop maxLength rest ([] : List Nat)).groups ≠ [] :=
          slmLoop_groups_ne_nil maxLength rest [] hrest (Or.inr hrestnil)
        have hmapne : (slmLoop maxLength rest ([] : List Nat)).groups.map List.flatten ≠ [] := by
          simpa using hgne
        by_cases hcur : cur = []
        · rw [if_pos hcur, if_neg (fun hcc => hcc hcur)]
          simp only [List.map_nil, List.nil_append, List.cons_append]
          rw [joinSep_cons_of_ne _ _ hmapne, ihr, joinSep_cons_of_ne _ _ hrestnil]
        · rw [if_neg hcur, if_pos hcur]
          simp only [List.map_cons, List.map_nil, List.cons_append, List.nil_append,
            List.flatten_cons, List.flatten_nil, List.append_nil]
          rw [joinSep_cons_of_ne _ _ (by simp : (p :: (slmLoop maxLength rest
              ([] : List Nat)).groups.map List.flatten) ≠ ([] : List (List Nat))),
            joinSep_cons_of_ne _ _ hmapne, ihr,
            joinSep_cons_of_ne _ _ (by simp : (p :: rest) ≠ ([] : List (List Nat))),
            joinSep_cons_of_ne _ _ hrestnil]
    · by_cases hfl : (cur.length : Int) + p.length + 2 > maxLength
      · rw [slmLoop_cons_flush maxLength p rest cur hbig hfl]
        have ihr := slmLoop_reconstruct maxLength rest p hrest
        rw [if_neg hp] at ihr
        by_cases hcur : cur = []
        · rw [if_pos hcur, if_neg (fun hcc => hcc hcur)]
          simpa using ihr
        · have hgne : (slmLoop maxLength rest p).groups ≠ [] :=
            slmLoop_groups_ne_nil maxLength rest p hrest (Or.inl hp)
          have hmapne : (slmLoop maxLength rest p).groups.map List.flatten ≠ [] := by
            simpa using hgne
          rw [if_neg hcur, if_pos hcur]
          simp only [List.map_append, List.map_cons, List.map_nil, List.cons_append,
            List.nil_append, List.flatten_cons, List.flatten_nil, List.append_nil]
          rw [joinSep_cons_of_ne _ _ hmapne, ihr,
            joinSep_cons_of_ne _ _ (by simp : (p :: rest) ≠ ([] : List (List Nat)))]
      · rw [slmLoop_cons_acc maxLength p rest cur hbig hfl]
        by_cases hcur : cur = []
        · rw [if_neg (by simp [hcur] : ¬cur ≠ []), if_pos hcur]
          have ihr := slmLoop_reconstruct maxLength rest p hrest
          rw [if_neg hp] at ihr
          exact ihr
        · have hcur2 : cur ++ paragraphSep ++ p ≠ [] := by simp [hp]
          have ihr := slmLoop_reconstruct maxLength rest (cur ++ paragraphSep ++ p) hrest
          rw [if_neg hcur2] at ihr
          rw [if_pos hcur, if_neg hcur, ihr]
          by_cases hrestnil : rest = []
          · subst hrestnil
            simp [joinSep, List.append_assoc]
          · rw [joinSep_cons_of_ne _ _ hrestnil,
              joinSep_cons_of_ne _ _ (by simp : (p :: rest) ≠ ([] : List (List Nat))),
              joinSep_cons_of_ne _ _ hrestnil]
            simp [List.append_assoc]

theorem slmLoop_flatten_ne_nil (maxLength : Int) (hm : maxLength ≤ 0) :
    ∀ (paragraphs : List (List Nat)) (cur : List Nat),
      (∃ p ∈ paragraphs, p ≠ []) → (slmLoop maxLength paragraphs cur).groups.flatten ≠ []
  | [], _ => by
    rintro ⟨p, hp, _⟩
    simp at hp
  | p :: rest, cur => by
    rintro ⟨q, hq, hqne⟩
    by_cases hbig : (p.length : Int) > maxLength
    · rw [slmLoop_cons_big maxLength p rest cur hbig]
      rcases List.mem_cons.mp hq with hq1 | hq2
      · have hpne : p ≠ [] := hq1 ▸ hqne
        have hsv : (sendVeryLongParagraph p maxLength).chunks ≠ [] := by
          intro hnil
          have := sendVeryLongParagraph_flatten p maxLength
          rw [hnil] at this
          exact hpne this.symm
        simp only [List.flatten_append, List.flatten_cons, List.flatten_nil, List.append_nil,
          ne_eq, List.append_eq_nil]
        intro hfalse
        exact hsv hfalse.1.2
      · have ih := slmLoop_flatten_ne_nil maxLength hm rest [] ⟨q, hq2, hqne⟩
        simp only [List.flatten_append, ne_eq, List.append_eq_nil]
        intro hfalse
        exact ih hfalse.2
    · have hpnil : p = [] := by
        have : (p.length : Int) ≤ maxLength := by omega
        have : p.length = 0 := by omega
        exact List.length_eq_zero.mp this
      have hqrest : q ∈ rest := by
        rcases List.mem_cons.mp hq with hq1 | hq2
        · exact absurd (hq1.trans hpnil) hqne
        · exact hq2
      by_cases hfl : (cur.length : Int) + p.length + 2 > maxLength
      · rw [slmLoop_cons_flush maxLength p rest cur hbig hfl]
        have ih := slmLoop_flatten_ne_nil maxLength hm rest p ⟨q, hqrest, hqne⟩
        simp only [List.flatten_append, ne_eq, List.append_eq_nil]
        intro hfalse
        exact ih hfalse.2
      · rw [slmLoop_cons_acc maxLength p rest cur hbig hfl]
        exact slmLoop_flatten_ne_nil maxLength hm rest _ ⟨q, hqrest, hqne⟩

/-! ### Chunker claims -/

/-- C9: `Split("AAAA\n\nB", 4)` returns exactly `["AAAA", "B"]`: a first
paragraph that exactly fills the limit becomes its own chunk and no
separator is carried into or prepended to the next chunk
(`65` = `A`, `10` = `\n`, `66` = `B`). -/
theorem scenarioB_exact_fit :
    splitChunks [65, 65, 65, 65, 10, 10, 66] 4 = [[65, 65, 65, 65], [66]] := by decide

/-- C1 counterexample: the claim "at every intermediate step the
accumulation buffer's length stays <= maxLen" fails at `text = "AAAAA"`,
`maxLen = 4`: the oversized sentence `"AAAAA"` (length 5) is written
into the buffer of `sendVeryLongParagraph`, so a buffer state of length
5 > 4 occurs even though `maxLen >= 1`. -/
theorem chunk_length_bound_counterexample :
    (1 : Int) ≤ 4 ∧ [65, 65, 65, 65, 65] ∈ (sendLongMessage [65, 65, 65, 65, 65] 4).bufs ∧
      ¬((([65, 65, 65, 65, 65] : List Nat).length : Int) ≤ 4) := by decide

/-- C1 (amended): for every `maxLen >= 1` and every text, every chunk
emitted by `sendLongMessage` (with its fallback
`sendVeryLongParagraph`) has length `<= maxLen` except chunks that are a
single oversized sentence emitted verbatim; and every intermediate
accumulation-buffer state has length `<= maxLen` except when the buffer
holds such an oversized sentence (the very chunk the fallback then
emits verbatim). -/
theorem chunk_length_bound (text : List Nat) (maxLen : Int) (h : 1 ≤ maxLen) :
    (∀ c ∈ splitChunks text maxLen,
      (c.length : Int) ≤ maxLen ∨ OversizedSentence text maxLen c) ∧
    (∀ b ∈ (sendLongMessage text maxLen).bufs,
      (b.length : Int) ≤ maxLen ∨ OversizedSentence text maxLen b) := by
  unfold splitChunks sendLongMessage
  by_cases hshort : (text.length : Int) ≤ maxLen
  · rw [if_pos hshort]
    constructor
    · intro c hc
      simp at hc
      subst hc
      exact Or.inl hshort
    · intro b hb
      simp at hb
  · rw [if_neg hshort]
    refine slmLoop_bound (OversizedSentence text maxLen) maxLen (by omega) _ []
      (by simp; omega) ?_
    intro p hpmem hplen
    unfold sendVeryLongParagraph
    exact svlpLoop_bound (OversizedSentence text maxLen) maxLen _ []
      (Or.inl (by simp; omega))
      (fun s hsmem hslen => ⟨p, hpmem, hplen, hsmem, hslen⟩)

/-- C1 witness: the amended bound instantiated at
`text = "AA\n\nB"`, `maxLen = 3`. -/
theorem chunk_length_bound_witness :
    (1 : Int) ≤ 3 ∧
      ((∀ c ∈ splitChunks [65, 65, 10, 10, 66] 3,
        (c.length : Int) ≤ 3 ∨ OversizedSentence [65, 65, 10, 10, 66] 3 c) ∧
      (∀ b ∈ (sendLongMessage [65, 65, 10, 10, 66] 3).bufs,
        (b.length : Int) ≤ 3 ∨ OversizedSentence [65, 65, 10, 10, 66] 3 b)) :=
  ⟨by decide, chunk_length_bound [65, 65, 10, 10, 66] 3 (by decide)⟩

/-- C2 counterexample: at `text = "\n\nBBB"`, `maxLen = 4` — a text whose
only delimiter is the paragraph separator — the chunker emits the single
chunk `"BBB"`, so no joining of the chunks can reproduce the text: the
leading separator (and its empty paragraph) is lost. -/
theorem chunker_roundtrip_counterexample :
    reconstructChunks [10, 10, 66, 66, 66] 4 ≠ [10, 10, 66, 66, 66] ∧
      splitChunks [10, 10, 66, 66, 66] 4 = [[66, 66, 66]] := by decide

/-- C2 (amended): for every `maxLen >= 1` and every text all of whose
paragraphs are non-empty (no leading, trailing, or doubled `"\n\n"`),
joining the chunk groups of `sendLongMessage` with `"\n\n"` between
paragraph-level chunks and the empty string between the sentence-level
chunks of one oversized paragraph reproduces the input text exactly. -/
theorem chunker_roundtrip (text : List Nat) (maxLen : Int) (h : 1 ≤ maxLen)
    (hne : ∀ p ∈ splitOnSeq paragraphSep text, p ≠ []) :
    reconstructChunks text maxLen = text := by
  unfold reconstructChunks sendLongMessage
  by_cases hshort : (text.length : Int) ≤ maxLen
  · rw [if_pos hshort]
    simp [joinSep]
  · rw [if_neg hshort]
    rw [slmLoop_reconstruct maxLen (splitOnSeq paragraphSep text) [] hne, if_pos rfl]
    exact joinSep_splitOnSeq paragraphSep (by simp [paragraphSep]) text

/-- C2 witness: the round trip instantiated at `text = "AA\n\nB"`,
`maxLen = 3`. -/
theorem chunker_roundtrip_witness :
    (1 : Int) ≤ 3 ∧ (∀ p ∈ splitOnSeq paragraphSep [65, 65, 10, 10, 66], p ≠ []) ∧
      reconstructChunks [65, 65, 10, 10, 66] 3 = [65, 65, 10, 10, 66] :=
  ⟨by decide, by decide, chunker_roundtrip [65, 65, 10, 10, 66] 3 (by decide) (by decide)⟩

/-- C10: the sentence fallback recognizes only `"。"` (U+3002) as a
terminator: a paragraph longer than `maxLen` that contains no occurrence
of the UTF-8 bytes of `"。"` is emitted verbatim as a single oversized
chunk, never split at `"."`, `"!"`, `"?"` or any other byte. -/
theorem no_ideographic_stop_verbatim (p : List Nat) (maxLen : Int)
    (hns : containsSeq ideographicStop p = false) (hm : 1 ≤ maxLen)
    (hlen : (p.length : Int) > maxLen) :
    (sendVeryLongParagraph p maxLen).chunks = [p] := by
  unfold sendVeryLongParagraph
  rw [splitOnSeq_of_not_contains _ _ hns]
  have hp : p ≠ [] := by
    intro hnil
    rw [hnil] at hlen
    simp at hlen
    omega
  simp [svlpLoop, hp, hlen]

/-- C10 witness: the paragraph `".!?ab"` (length 5, no ideographic full
stop) with `maxLen = 4` is emitted verbatim as one oversized chunk. -/
theorem no_ideographic_stop_verbatim_witness :
    containsSeq ideographicStop [46, 33, 63, 97, 98] = false ∧ (1 : Int) ≤ 4 ∧
      (sendVeryLongParagraph [46, 33, 63, 97, 98] 4).chunks = [[46, 33, 63, 97, 98]] :=
  ⟨by decide, by decide,
    no_ideographic_stop_verbatim [46, 33, 63, 97, 98] 4 (by decide) (by decide) (by decide)⟩

/-! ### Fetcher lemmas -/

theorem getCommentPos_zero (store : Int → Option Item) (commentID : Int) :
    getCommentPos store 0 commentID = (.skipped, []) := rfl

theorem getCommentPos_succ_none (store : Int → Option Item) (n : Nat) (commentID : Int)
    (h : store commentID = none) :
    getCommentPos store (n + 1) commentID = (.fetchError, [commentID]) := by
  simp [getCommentPos, h]

theorem getCommentPos_succ_invalid (store : Int → Option Item) (n : Nat) (commentID : Int)
    (it : Item) (h : store commentID = some it) (hv : it.text = "" ∨ it.type_ ≠ "comment") :
    getCommentPos store (n + 1) commentID = (.skipped, [commentID]) := by
  simp only [getCommentPos, h]
  rw [if_pos hv]

theorem getCommentPos_succ_deep (store : Int → Option Item) (n : Nat) (commentID : Int)
    (it : Item) (h : store commentID = some it)
    (hv : ¬(it.text = "" ∨ it.type_ ≠ "comment")) (hk : it.kids ≠ [] ∧ 0 < n) :
    getCommentPos store (n + 1) commentID =
      (.ok (.node { it with kids := if 5 < it.kids.length then it.kids.take 5 else it.kids }
          (((if 5 < it.kids.length then it.kids.take 5 else it.kids).map
            (fun kid => getCommentPos store n kid)).filterMap (fun r => r.1.tree))),
        commentID :: (((if 5 < it.kids.length then it.kids.take 5 else it.kids).map
          (fun kid => getCommentPos store n kid)).map Prod.snd).flatten) := by
  simp only [getCommentPos, h]
  rw [if_neg hv, if_pos hk]

theorem getCommentPos_succ_shallow (store : Int → Option Item) (n : Nat) (commentID : Int)
    (it : Item) (h : store commentID = some it)
    (hv : ¬(it.text = "" ∨ it.type_ ≠ "comment")) (hk : ¬(it.kids ≠ [] ∧ 0 < n)) :
    getCommentPos store (n + 1) commentID = (.ok (.node it []), [commentID]) := by
  simp only [getCommentPos, h]
  rw [if_neg hv, if_neg hk]

theorem kids5_eq_take (kids : List Int) :
    (if 5 < kids.length then kids.take 5 else kids) = kids.take 5 := by
  split
  · rfl
  · rename_i hle
    exact (List.take_of_length_le (by omega)).symm

theorem kids5_length_le (kids : List Int) :
    (if 5 < kids.length then kids.take 5 else kids).length ≤ 5 := by
  rw [kids5_eq_take]
  simp [List.length_take]

theorem capOKList_iff (l : List CommentTree) :
    capOKList l = true ↔ ∀ t ∈ l, capOK t = true := by
  induction l with
  | nil => simp [capOKList]
  | cons t ts ih =>
    simp only [capOKList, Bool.and_eq_true, ih, List.mem_cons]
    constructor
    · rintro ⟨h1, h2⟩ x (hx | hx)
      · exact hx ▸ h1
      · exact h2 x hx
    · intro hall
      exact ⟨hall t (Or.inl rfl), fun x hx => hall x (Or.inr hx)⟩

theorem getCommentsParallel_fst (store : Int → Option Item) (ids : List Int) (d : Int) :
    (getCommentsParallel store ids d).1 =
      ids.filterMap (fun j => (getComment store j d).1.tree) := by
  simp only [getCommentsParallel]
  rw [List.filterMap_map]
  rfl

theorem getCommentsParallel_length_le (store : Int → Option Item) (ids : List Int) (d : Int) :
    (getCommentsParallel store ids d).1.length ≤ ids.length := by
  rw [getCommentsParallel_fst]
  exact List.length_filterMap_le _ _

theorem getCommentPos_ok_item (store : Int → Option Item) :
    ∀ (n : Nat) (commentID : Int) (it : Item) (t : CommentTree) (calls : List Int),
      store commentID = some it → getCommentPos store n commentID = (.ok t, calls) →
      t.item = { it with kids := if 1 < n then it.kids.take 5 else it.kids } ∧
        t.children.length ≤ 5
  | 0, commentID, it, t, calls => by
    intro _ h
    rw [getCommentPos_zero] at h
    simp at h
  | m + 1, commentID, it, t, calls => by
    intro hs h
    by_cases hv : it.text = "" ∨ it.type_ ≠ "comment"
    · rw [getCommentPos_succ_invalid store m commentID it hs hv] at h
      simp at h
    · by_cases hk : it.kids ≠ [] ∧ 0 < m
      · rw [getCommentPos_succ_deep store m commentID it hs hv hk] at h
        rw [Prod.mk.injEq] at h
        obtain ⟨h1, _⟩ := h
        rw [FetchResult.ok.injEq] at h1
        subst h1
        constructor
        · simp only [CommentTree.item]
          rw [kids5_eq_take]
          rw [if_pos (by omega)]
        · simp only [CommentTree.children]
          calc _ ≤ _ := List.length_filterMap_le _ _
            _ ≤ 5 := by
              rw [List.length_map]
              exact kids5_length_le it.kids
      · rw [getCommentPos_succ_shallow store m commentID it hs hv hk] at h
        rw [Prod.mk.injEq] at h
        obtain ⟨h1, _⟩ := h
        rw [FetchResult.ok.injEq] at h1
        subst h1
        rw [not_and_or, not_not] at hk
        constructor
        · simp only [CommentTree.item]
          rcases hk with hk | hk
          · have hkk : (if 1 < m + 1 then it.kids.take 5 else it.kids) = it.kids := by
              rw [hk]
              simp
            rw [hkk]
          · rw [if_neg (by omega)]
        · simp [CommentTree.children]

theorem getCommentPos_ok_capOK (store : Int → Option Item) :
    ∀ (n : Nat) (commentID : Int) (t : CommentTree) (calls : List Int),
      getCommentPos store n commentID = (.ok t, calls) → capOK t = true
  | 0, commentID, t, calls => by
    intro h
    rw [getCommentPos_zero] at h
    simp at h
  | m + 1, commentID, t, calls => by
    intro h
    cases hs : store commentID with
    | none =>
      rw [getCommentPos_succ_none store m commentID hs] at h
      simp at h
    | some it =>
      by_cases hv : it.text = "" ∨ it.type_ ≠ "comment"
      · rw [getCommentPos_succ_invalid store m commentID it hs hv] at h
        simp at h
      · by_cases hk : it.kids ≠ [] ∧ 0 < m
        · rw [getCommentPos_succ_deep store m commentID it hs hv hk] at h
          rw [Prod.mk.injEq] at h
          obtain ⟨h1, _⟩ := h
          rw [FetchResult.ok.injEq] at h1
          subst h1
          simp only [capOK, Bool.and_eq_true, decide_eq_true_eq]
          constructor
          · calc _ ≤ _ := List.length_filterMap_le _ _
              _ ≤ 5 := by
                rw [List.length_map]
                exact kids5_length_le it.kids
          · rw [capOKList_iff]
            intro c hc
            rw [List.mem_filterMap] at hc
            obtain ⟨r, hr, hrt⟩ := hc
            rw [List.mem_map] at hr
            obtain ⟨kid, _, hkid⟩ := hr
            have hok : r.1 = FetchResult.ok c := by
              cases hr1 : r.1 with
              | fetchError =>
                rw [hr1] at hrt
                simp [FetchResult.tree] at hrt
              | skipped =>
                rw [hr1] at hrt
                simp [FetchResult.tree] at hrt
              | ok a =>
                rw [hr1] at hrt
                simp only [FetchResult.tree, Option.some.injEq] at hrt
                rw [hrt]
            have hr2 : r = (FetchResult.ok c, r.2) := by
              obtain ⟨r1, rsnd⟩ := r
              simp only at hok ⊢
              rw [hok]
            exact getCommentPos_ok_capOK store m kid c r.2 (hkid.trans hr2)
        · rw [getCommentPos_succ_shallow store m commentID it hs hv hk] at h
          rw [Prod.mk.injEq] at h
          obtain ⟨h1, _⟩ := h
          rw [FetchResult.ok.injEq] at h1
          subst h1
          rfl

theorem truncate_eq_take (cap : Nat) (kids : List Int) :
    (if cap < kids.length then kids.take cap else kids) = kids.take cap := by
  split
  · rfl
  · rename_i hle
    exact (List.take_of_length_le (by omega)).symm

theorem getComment_eq_pos (store : Int → Option Item) (j d : Int) (hd : ¬d ≤ 0) :
    getComment store j d = getCommentPos store d.toNat j := by
  unfold getComment
  rw [if_neg hd]

theorem getComment_fst_ok_capOK (store : Int → Option Item) (j d : Int) (t : CommentTree)
    (h : (getComment store j d).1 = .ok t) : capOK t = true := by
  by_cases hd : d ≤ 0
  · unfold getComment at h
    rw [if_pos hd] at h
    simp at h
  · rw [getComment_eq_pos store j d hd] at h
    have hpair : getCommentPos store d.toNat j =
        (.ok t, (getCommentPos store d.toNat j).2) := by
      rw [← h]
    exact getCommentPos_ok_capOK store d.toNat j t _ hpair

/-! ### Fetcher claims -/

/-- C4: calling the forest fetch (`getCommentsParallel`) with depth 0
returns an empty sequence and issues no item-store fetch for any id:
`getComment` returns `(nil, nil)` before touching the store, so every id
is filtered out and the list of dispatched store fetches is empty. -/
theorem depth_zero_returns_empty (store : Int → Option Item) (ids : List Int) :
    getCommentsParallel store ids 0 = ([], []) := by
  induction ids with
  | nil => rfl
  | cons id rest ih =>
    simp only [getCommentsParallel, List.map_cons, List.filterMap_cons,
      List.flatten_cons] at ih ⊢
    have hg : getComment store id 0 = (FetchResult.skipped, []) := rfl
    rw [hg]
    simpa [FetchResult.tree] using ih

/-- C7: an id that resolves successfully at depth 1 comes back as a leaf
(empty children), and the only store fetch issued is for the id itself —
no fetches for its children, whether or not the item has kids. -/
theorem depth_one_leaf (store : Int → Option Item) (commentID : Int) (t : CommentTree)
    (calls : List Int) (h : getComment store commentID 1 = (.ok t, calls)) :
    t.children = [] ∧ calls = [commentID] := by
  rw [getComment_eq_pos store commentID 1 (by omega)] at h
  rw [Int.toNat_one] at h
  cases hs : store commentID with
  | none =>
    rw [getCommentPos_succ_none store 0 commentID hs] at h
    simp at h
  | some it =>
    by_cases hv : it.text = "" ∨ it.type_ ≠ "comment"
    · rw [getCommentPos_succ_invalid store 0 commentID it hs hv] at h
      simp at h
    · rw [getCommentPos_succ_shallow store 0 commentID it hs hv (by simp)] at h
      rw [Prod.mk.injEq] at h
      obtain ⟨h1, h2⟩ := h
      rw [FetchResult.ok.injEq] at h1
      subst h1
      exact ⟨rfl, h2.symm⟩

/-- C7 witness: `itemSix` has six kids, yet at depth 1 it resolves to a
leaf with a single store fetch. -/
theorem depth_one_leaf_witness :
    getComment storeSixKids 1 1 = (.ok (.node itemSix []), [1]) ∧
      ((CommentTree.node itemSix []).children = [] ∧ ([1] : List Int) = [1]) :=
  ⟨rfl, depth_one_leaf storeSixKids 1 (.node itemSix []) [1] rfl⟩

/-- C3: a failing id — fetch failure or semantically invalid item
(empty text or kind not `"comment"`), i.e. any outcome other than a
resolved node — contributes nothing to the forest: removing it from the
id list leaves the result unchanged, and every sibling that resolves
successfully still appears in the result.  No error is surfaced: the Go
`getCommentsParallel` returns only `[]Comment`, with no error value. -/
theorem failed_sibling_dropped (store : Int → Option Item) (d : Int) (ids : List Int)
    (badID : Int) (hbad : (getComment store badID d).1.tree = none) :
    (getCommentsParallel store ids d).1 = (getCommentsParallel store (ids.erase badID) d).1 ∧
      ∀ (j : Int) (t : CommentTree), j ∈ ids → (getComment store j d).1 = .ok t →
        t ∈ (getCommentsParallel store ids d).1 := by
  constructor
  · rw [getCommentsParallel_fst, getCommentsParallel_fst]
    induction ids with
    | nil => simp
    | cons a rest ih =>
      by_cases ha : a = badID
      · subst ha
        rw [List.erase_cons_head, List.filterMap_cons]
        simp [hbad]
      · rw [List.erase_cons_tail (by simpa using ha), List.filterMap_cons,
          List.filterMap_cons]
        cases hfa : (getComment store a d).1.tree with
        | none => exact ih
        | some u =>
          rw [ih]
  · intro j t hj hok
    rw [getCommentsParallel_fst, List.mem_filterMap]
    refine ⟨j, hj, ?_⟩
    rw [hok]
    rfl

/-- C3 witness: ids `[1, 2, 3]` at depth 1 where id 2 fails at the
store — the result equals the fetch of `[1, 3]` and both resolved
leaves are present. -/
theorem failed_sibling_dropped_witness :
    (getComment storeOneFails 2 1).1.tree = none ∧
      ((getCommentsParallel storeOneFails [1, 2, 3] 1).1 =
          (getCommentsParallel storeOneFails (([1, 2, 3] : List Int).erase 2) 1).1 ∧
        ∀ (j : Int) (t : CommentTree), j ∈ ([1, 2, 3] : List Int) →
          (getComment storeOneFails j 1).1 = .ok t →
          t ∈ (getCommentsParallel storeOneFails [1, 2, 3] 1).1) :=
  ⟨rfl, failed_sibling_dropped storeOneFails 1 [1, 2, 3] 2 rfl⟩

theorem ok_of_tree_eq_some {r : FetchResult} {t : CommentTree} (h : r.tree = some t) :
    r = .ok t := by
  cases r with
  | fetchError => simp [FetchResult.tree] at h
  | skipped => simp [FetchResult.tree] at h
  | ok a =>
    simp only [FetchResult.tree, Option.some.injEq] at h
    rw [h]

/-- C5: at every recursion level the child-id list is truncated before
processing to the prefix of at most that level's fan-out cap (20 for the
story's top-level kids in `GetStoryWithComments`, 5 for nested kids in
`getComment`), preserving the original order; ids beyond the cap are
silently dropped, and the number of nodes resolved at any level never
exceeds that level's cap (`capOKList`/`capOK` state the nested bound at
every level of the returned forest; the truncated kids list is exactly
`take cap` of the fetched one, hence an order-preserving prefix). -/
theorem fanout_caps :
    (∀ (storyStore : Int → Option Story) (store : Int → Option Item) (storyID : Int)
      (st : Story) (r : Story × List CommentTree),
      storyStore storyID = some st → GetStoryWithComments storyStore store storyID = some r →
      r.1.kids = st.kids.take 20 ∧ r.1.kids.length ≤ 20 ∧ r.2.length ≤ 20 ∧
        capOKList r.2 = true) ∧
    (∀ (store : Int → Option Item) (n : Nat) (commentID : Int) (it : Item) (t : CommentTree)
      (calls : List Int), store commentID = some it →
      getCommentPos store n commentID = (.ok t, calls) →
      t.item.kids = (if 1 < n then it.kids.take 5 else it.kids) ∧
        t.children.length ≤ 5 ∧ capOK t = true) := by
  constructor
  · intro storyStore store storyID st r hs hr
    simp only [GetStoryWithComments, hs] at hr
    by_cases hk : st.kids ≠ []
    · rw [if_pos hk, Option.some.injEq] at hr
      subst hr
      refine ⟨?_, ?_, ?_, ?_⟩
      · exact truncate_eq_take 20 st.kids
      · show (if 20 < st.kids.length then st.kids.take 20 else st.kids).length ≤ 20
        rw [truncate_eq_take]
        simp [List.length_take]
      · calc ((getCommentsParallel store
            (if 20 < st.kids.length then st.kids.take 20 else st.kids) 2).1).length
            ≤ (if 20 < st.kids.length then st.kids.take 20 else st.kids).length :=
              getCommentsParallel_length_le store _ 2
          _ ≤ 20 := by
              rw [truncate_eq_take]
              simp [List.length_take]
      · rw [capOKList_iff]
        intro t ht
        have ht2 : t ∈ (getCommentsParallel store
            (if 20 < st.kids.length then st.kids.take 20 else st.kids) 2).1 := ht
        rw [getCommentsParallel_fst, List.mem_filterMap] at ht2
        obtain ⟨j, _, hjt⟩ := ht2
        exact getComment_fst_ok_capOK store j 2 t (ok_of_tree_eq_some hjt)
    · rw [if_neg hk, Option.some.injEq] at hr
      rw [not_not] at hk
      subst hr
      refine ⟨?_, ?_, ?_, ?_⟩
      · show st.kids = st.kids.take 20
        rw [hk]
        rfl
      · show st.kids.length ≤ 20
        rw [hk]
        simp
      · simp
      · rfl
  · intro store n commentID it t calls hs h
    have hitem := getCommentPos_ok_item store n commentID it t calls hs h
    refine ⟨?_, hitem.2, getCommentPos_ok_capOK store n commentID t calls h⟩
    rw [hitem.1]

/-- C5 witness: story `storyW` has 25 kids and every kid fails at the
item store; nested: `itemSix` has 6 kids at depth 2. -/
theorem fanout_caps_witness :
    (storyStore25 100 = some storyW ∧
      GetStoryWithComments storyStore25 (fun _ => none) 100 =
        some ({ storyW with kids := storyW.kids.take 20 }, []) ∧
      (({ storyW with kids := storyW.kids.take 20 }, ([] : List CommentTree)).1.kids =
          storyW.kids.take 20 ∧
        ({ storyW with kids := storyW.kids.take 20 },
          ([] : List CommentTree)).1.kids.length ≤ 20 ∧
        (({ storyW with kids := storyW.kids.take 20 },
          ([] : List CommentTree)).2).length ≤ 20 ∧
        capOKList ({ storyW with kids := storyW.kids.take 20 },
          ([] : List CommentTree)).2 = true)) ∧
    (storeSixKids 1 = some itemSix ∧
      getCommentPos storeSixKids 2 1 = (.ok treeSix, [1, 2, 3, 4, 5, 6]) ∧
      (treeSix.item.kids = (if 1 < 2 then itemSix.kids.take 5 else itemSix.kids) ∧
        treeSix.children.length ≤ 5 ∧ capOK treeSix = true)) :=
  ⟨⟨rfl, rfl, fanout_caps.1 storyStore25 (fun _ => none) 100 storyW
      ({ storyW with kids := storyW.kids.take 20 }, []) rfl rfl⟩,
    ⟨rfl, rfl, fanout_caps.2 storeSixKids 2 1 itemSix treeSix [1, 2, 3, 4, 5, 6] rfl rfl⟩⟩

/-- C8 counterexample: an Item is not immutable once fetched — at depth
2, `getComment` truncates the fetched item's `Kids` field in place
(`comment.Kids = comment.Kids[:maxChildren]`), so the node returned for
`itemSix` (six kids) carries `kids = [2, 3, 4, 5, 6]`, not the fetched
`[2, 3, 4, 5, 6, 7]`. -/
theorem item_immutability_counterexample :
    Option.map (fun t => t.item.kids) (getComment storeSixKids 1 2).1.tree =
        some [2, 3, 4, 5, 6] ∧
      Option.map Item.kids (storeSixKids 1) = some [2, 3, 4, 5, 6, 7] ∧
      Option.map (fun t => t.item.kids) (getComment storeSixKids 1 2).1.tree ≠
        Option.map Item.kids (storeSixKids 1) := by decide

/-- C8 (amended): every field of the fetched item except `kids` is
returned unchanged; `kids` itself is returned unchanged unless children
are to be resolved (depth > 1 for comments; any non-empty kid list for
the story), in which case it is replaced by its first-cap prefix
(`take 5` nested, `take 20` for the story).  Resolution never modifies
any other field. -/
theorem item_fields_preserved :
    (∀ (store : Int → Option Item) (n : Nat) (commentID : Int) (it : Item) (t : CommentTree)
      (calls : List Int), store commentID = some it →
      getCommentPos store n commentID = (.ok t, calls) →
      t.item = { it with kids := if 1 < n then it.kids.take 5 else it.kids }) ∧
    (∀ (storyStore : Int → Option Story) (store : Int → Option Item) (storyID : Int)
      (st : Story) (r : Story × List CommentTree), storyStore storyID = some st →
      GetStoryWithComments storyStore store storyID = some r →
      r.1 = { st with kids := st.kids.take 20 }) := by
  constructor
  · intro store n commentID it t calls hs h
    exact (getCommentPos_ok_item store n commentID it t calls hs h).1
  · intro storyStore store storyID st r hs hr
    simp only [GetStoryWithComments, hs] at hr
    by_cases hk : st.kids ≠ []
    · rw [if_pos hk, Option.some.injEq] at hr
      subst hr
      show { st with kids := if 20 < st.kids.length then st.kids.take 20 else st.kids } =
        { st with kids := st.kids.take 20 }
      rw [truncate_eq_take]
    · rw [if_neg hk, Option.some.injEq] at hr
      rw [not_not] at hk
      subst hr
      show st = { st with kids := st.kids.take 20 }
      have htake : st.kids.take 20 = st.kids := by
        rw [hk]
        rfl
      rw [htake]

/-- C8 witness: the amended field-preservation applied at `itemSix`
(depth 2) and at `storyW`. -/
theorem item_fields_preserved_witness :
    (storeSixKids 1 = some itemSix ∧
      getCommentPos storeSixKids 2 1 = (.ok treeSix, [1, 2, 3, 4, 5, 6]) ∧
      treeSix.item = { itemSix with kids := if 1 < 2 then itemSix.kids.take 5
        else itemSix.kids }) ∧
    (storyStore25 100 = some storyW ∧
      GetStoryWithComments storyStore25 (fun _ => none) 100 =
        some ({ storyW with kids := storyW.kids.take 20 }, []) ∧
      ({ storyW with kids := storyW.kids.take 20 }, ([] : List CommentTree)).1 =
        { storyW with kids := storyW.kids.take 20 }) :=
  ⟨⟨rfl, rfl, item_fields_preserved.1 storeSixKids 2 1 itemSix treeSix
      [1, 2, 3, 4, 5, 6] rfl rfl⟩,
    ⟨rfl, rfl, item_fields_preserved.2 storyStore25 (fun _ => none) 100 storyW
      ({ storyW with kids := storyW.kids.take 20 }, []) rfl rfl⟩⟩

/-- C6 counterexample: caller contract violations do not fail loudly.
`getComment` at depth `-1` returns `(nil, nil)` — the same silent skip
as depth 0, with no error and no fetch — and the chunker at
`maxLen = 0` happily returns a normal chunk list (here via the
oversized-sentence fallback) instead of reporting an error; the Go
chunker has no error path of its own at all. -/
theorem failfast_counterexample :
    getComment (fun _ => none) 1 (-1) = (FetchResult.skipped, []) ∧
      splitChunks [66, 66, 66, 66, 66] 0 = [[66, 66, 66, 66, 66]] :=
  ⟨rfl, by decide⟩

/-- C6 (amended): structural misuse is absorbed silently, not loudly:
any depth `<= 0` (negative included) makes `getComment` return
`(nil, nil)` — no error, no store fetch — and any `maxLen <= 0` leaves
the chunker running its normal algorithm, which still emits a non-empty
chunk list whenever the text has a non-empty paragraph. -/
theorem misuse_handled_silently :
    (∀ (store : Int → Option Item) (commentID maxDepth : Int), maxDepth ≤ 0 →
      getComment store commentID maxDepth = (FetchResult.skipped, [])) ∧
    (∀ (text : List Nat) (maxLen : Int), maxLen ≤ 0 →
      (∃ p ∈ splitOnSeq paragraphSep text, p ≠ []) → splitChunks text maxLen ≠ []) := by
  constructor
  · intro store commentID maxDepth hd
    unfold getComment
    rw [if_pos hd]
  · rintro text maxLen hm ⟨p, hp, hpne⟩
    have htext : text ≠ [] := ne_nil_of_mem_splitOnSeq hp hpne
    have hlen : 0 < text.length := List.length_pos.mpr htext
    unfold splitChunks sendLongMessage
    rw [if_neg (by omega)]
    exact slmLoop_flatten_ne_nil maxLen hm _ [] ⟨p, hp, hpne⟩

/-- C6 witness: the silent handling at depth `-1` and at `maxLen = 0`
on the text `"BBBBB"`. -/
theorem misuse_handled_silently_witness :
    (((-1 : Int) ≤ 0) ∧ getComment (fun _ => none) 1 (-1) = (FetchResult.skipped, [])) ∧
      (((0 : Int) ≤ 0) ∧ splitChunks [66, 66, 66, 66, 66] 0 ≠ []) :=
  ⟨⟨by decide, misuse_handled_silently.1 (fun _ => none) 1 (-1) (by decide)⟩,
    ⟨by decide, misuse_handled_silently.2 [66, 66, 66, 66, 66] 0 (by decide)
      ⟨[66, 66, 66, 66, 66], by decide, by decide⟩⟩⟩

end HNDaily
